import Mathlib

/-!
Verification of the ISO-8601-style datetime parser (`src/rust/iso-8601/src/lib.rs`).

The Rust source is shallowly embedded: strings become `List Char`, Rust's
checked byte slicing `str::get` becomes `strGet` at character granularity,
the mutable `DateTimeValues` aggregator becomes explicit state passing, and
the recursive state machine becomes a structurally recursive function whose
fuel is the (fixed, 7-long) state chain length.  The external `chrono`
calls (`FixedOffset::east_opt`, `with_ymd_and_hms(..).single()`) are not in
the repository; they are modelled from the spec's "Instant Constructor"
contract (spec section 4.3).
-/

/-- Rust `&str`, modelled at character granularity. -/
abbrev Str := List Char

/-- Rust `str::get(a..b)`: `some` of the slice when the range is within
bounds (`a ≤ b ≤ length`), `none` otherwise. -/
def strGet (s : Str) (a b : Nat) : Option Str :=
  if a ≤ b ∧ b ≤ s.length then some ((s.drop a).take (b - a)) else none

/-- Rust `str::get(a..)`: `some` of the suffix when `a ≤ length`. -/
def strGetFrom (s : Str) (a : Nat) : Option Str :=
  if a ≤ s.length then some (s.drop a) else none

/-- Value of an ASCII digit character, `none` for anything else. -/
def digitVal (c : Char) : Option Nat :=
  if 48 ≤ c.toNat ∧ c.toNat ≤ 57 then some (c.toNat - 48) else none

/-- Accumulating decimal-digit scan used by the integer parsers. -/
def parseDigitsAux : Str → Nat → Option Nat
  | [], acc => some acc
  | c :: rest, acc =>
    match digitVal c with
    | some d => parseDigitsAux rest (acc * 10 + d)
    | none => none

/-- Nonempty all-digit string to its value, `none` otherwise. -/
def parseDigits : Str → Option Nat
  | [] => none
  | c :: rest => parseDigitsAux (c :: rest) 0

/-- Rust `u32::from_str`: optional leading `+`, then digits, within `u32` range. -/
def parseU32 (s : Str) : Option Nat :=
  (match s with
   | '+' :: rest => parseDigits rest
   | _ => parseDigits s).bind
    (fun n => if n ≤ 4294967295 then some n else none)

/-- Rust `i32::from_str`: optional sign, then digits, within `i32` range. -/
def parseI32 (s : Str) : Option Int :=
  match s with
  | [] => none
  | c :: rest =>
    if c = '+' then
      (parseDigits rest).bind (fun n => if n ≤ 2147483647 then some (n : Int) else none)
    else if c = '-' then
      (parseDigits rest).bind (fun n => if n ≤ 2147483648 then some (-(n : Int)) else none)
    else
      (parseDigits (c :: rest)).bind (fun n => if n ≤ 2147483647 then some (n : Int) else none)

/-- Rust `TimezoneValues`: sign flag (`true` = `+`), hour and minute offsets. -/
structure TimezoneValues where
  sign : Bool
  hours : Int
  minutes : Int
deriving DecidableEq, Repr

/-- Rust `TimezoneValues::default()`. -/
def TimezoneValues.default : TimezoneValues :=
  { sign := true, hours := 0, minutes := 0 }

/-- Rust `TimezoneValues::secs()`. -/
def TimezoneValues.secs (tz : TimezoneValues) : Int :=
  (tz.hours * 60 + tz.minutes) * 60 * (if tz.sign then 1 else -1)

/-- Rust `TimezoneValues::parse_minutes`.  The source matches on
`str.get(..1)`: a leading `:` is skipped by recursing (through the
`parse` dispatcher) back into the `Minutes` state on `str.get(1..)`;
any other leading character makes it read `str.get(..2)` as a signed
integer; an empty string does nothing. -/
def TimezoneValues.parse_minutes (tz : TimezoneValues) : Str → TimezoneValues
  | [] => tz
  | c :: rest =>
    if c = ':' then
      tz.parse_minutes rest
    else
      match (strGet (c :: rest) 0 2).bind parseI32 with
      | some m => { tz with minutes := m }
      | none => tz

/-- Rust `TimezoneValues::parse_hours`: reads `str.get(..2)` as a signed
integer, stores it, then continues with the `Minutes` state on
`str.get(2..)`. -/
def TimezoneValues.parse_hours (tz : TimezoneValues) (s : Str) : TimezoneValues :=
  match (strGet s 0 2).bind parseI32 with
  | some h =>
    match strGetFrom s 2 with
    | some rest => TimezoneValues.parse_minutes { tz with hours := h } rest
    | none => { tz with hours := h }
  | none => tz

/-- Rust `TimezoneValues::parse_sign`: looks at `str.get(..1)`; on `+` or
`-` it records the sign and continues with the `Hours` state on
`str.get(1..)`; anything else (or an empty string) stops. -/
def TimezoneValues.parse_sign (tz : TimezoneValues) : Str → TimezoneValues
  | [] => tz
  | c :: rest =>
    if c = '+' ∨ c = '-' then
      TimezoneValues.parse_hours { tz with sign := c = '+' } rest
    else
      tz

/-- Rust `TimezoneParserState`. -/
inductive TimezoneParserState where
  | Sign
  | Hours
  | Minutes
deriving DecidableEq, Repr

/-- Rust `TimezoneValues::parse`: dispatch on the timezone state. -/
def TimezoneValues.parse (tz : TimezoneValues) (s : Str) :
    TimezoneParserState → TimezoneValues
  | TimezoneParserState.Sign => tz.parse_sign s
  | TimezoneParserState.Hours => tz.parse_hours s
  | TimezoneParserState.Minutes => tz.parse_minutes s

/-- Rust `DateTimeField`: a parsed field value, tagged with its kind. -/
inductive DateTimeField where
  | Year (value : Int)
  | Month (value : Nat)
  | Date (value : Nat)
  | Hours (value : Nat)
  | Minutes (value : Nat)
  | Seconds (value : Nat)
  | Timezone (value : TimezoneValues)
deriving DecidableEq, Repr

/-- Rust `ParserState`. -/
inductive ParserState where
  | Year
  | Month
  | Date
  | Hours
  | Minutes
  | Seconds
  | Timezone
deriving DecidableEq, Repr

/-- Rust `ParserPrefix`: the literal separator expected before a field. -/
inductive SepChar where
  | Dash
  | Colon
  | T
deriving DecidableEq, Repr

/-- Rust `ParserState::next`. -/
def ParserState.next : ParserState → Option ParserState
  | ParserState.Year => some ParserState.Month
  | ParserState.Month => some ParserState.Date
  | ParserState.Date => some ParserState.Hours
  | ParserState.Hours => some ParserState.Minutes
  | ParserState.Minutes => some ParserState.Seconds
  | ParserState.Seconds => some ParserState.Timezone
  | ParserState.Timezone => none

/-- Rust `ParserState::size`. -/
def ParserState.size : ParserState → Nat
  | ParserState.Year => 4
  | ParserState.Month => 2
  | ParserState.Date => 2
  | ParserState.Hours => 2
  | ParserState.Minutes => 2
  | ParserState.Seconds => 2
  | ParserState.Timezone => 1

/-- Rust `ParserState::prefix` (renamed: the expected separator, if any). -/
def ParserState.sepOf : ParserState → Option SepChar
  | ParserState.Month => some SepChar.Dash
  | ParserState.Date => some SepChar.Dash
  | ParserState.Hours => some SepChar.T
  | ParserState.Minutes => some SepChar.Colon
  | ParserState.Seconds => some SepChar.Colon
  | _ => none

/-- Rust `ParserState::parse`: interpret the extracted substring as this
state's field value (`i32` for the year, `u32` for the 2-digit fields). -/
def ParserState.parse : ParserState → Str → Option DateTimeField
  | ParserState.Year, s => (parseI32 s).map (fun v => DateTimeField.Year v)
  | ParserState.Month, s => (parseU32 s).map (fun v => DateTimeField.Month v)
  | ParserState.Date, s => (parseU32 s).map (fun v => DateTimeField.Date v)
  | ParserState.Hours, s => (parseU32 s).map (fun v => DateTimeField.Hours v)
  | ParserState.Minutes, s => (parseU32 s).map (fun v => DateTimeField.Minutes v)
  | ParserState.Seconds, s => (parseU32 s).map (fun v => DateTimeField.Seconds v)
  | ParserState.Timezone, _ => none

/-- Rust `ParserState::parse_from`: where the field's digits start in the
remaining text.  A `-` or `:` separator falls back to offset 0 when the
first character does not match; the `T`/space separator instead yields
`none` (parsing halts); states without a separator start at 0. -/
def ParserState.parse_from (st : ParserState) (s : Str) : Option Nat :=
  match st.sepOf with
  | some SepChar.Dash => (strGet s 0 1).map (fun u => if u = ['-'] then 1 else 0)
  | some SepChar.Colon => (strGet s 0 1).map (fun u => if u = [':'] then 1 else 0)
  | some SepChar.T =>
      (strGet s 0 1).bind (fun u => if u = ['T'] ∨ u = [' '] then some 1 else none)
  | none => some 0

/-- Number of states after this one in the fixed chain (used as fuel). -/
def ParserState.rank : ParserState → Nat
  | ParserState.Year => 6
  | ParserState.Month => 5
  | ParserState.Date => 4
  | ParserState.Hours => 3
  | ParserState.Minutes => 2
  | ParserState.Seconds => 1
  | ParserState.Timezone => 0

/-- Position of this state's field in the aggregator (year = 0 … timezone = 6). -/
def ParserState.idx : ParserState → Nat
  | ParserState.Year => 0
  | ParserState.Month => 1
  | ParserState.Date => 2
  | ParserState.Hours => 3
  | ParserState.Minutes => 4
  | ParserState.Seconds => 5
  | ParserState.Timezone => 6

/-- Rust `DateTimeValues`: the field aggregator. -/
structure DateTimeValues where
  year : Int
  month : Nat
  date : Nat
  hours : Nat
  minutes : Nat
  seconds : Nat
  timezone : TimezoneValues
deriving DecidableEq, Repr

/-- Rust `DateTimeValues::default()`: epoch date, midnight, UTC. -/
def DateTimeValues.default : DateTimeValues :=
  { year := 1970, month := 1, date := 1, hours := 0, minutes := 0, seconds := 0,
    timezone := TimezoneValues.default }

/-- Rust `DateTimeValues::set`. -/
def DateTimeValues.set (v : DateTimeValues) : DateTimeField → DateTimeValues
  | DateTimeField.Year value => { v with year := value }
  | DateTimeField.Month value => { v with month := value }
  | DateTimeField.Date value => { v with date := value }
  | DateTimeField.Hours value => { v with hours := value }
  | DateTimeField.Minutes value => { v with minutes := value }
  | DateTimeField.Seconds value => { v with seconds := value }
  | DateTimeField.Timezone value => { v with timezone := value }

/-- Rust `DateTimeValues::parse` / `parse_state`, combined.  The `Timezone`
state hands off to the timezone parser (`parse` dispatching on the state);
every other state finds the field's start via `parse_from`, extracts
`str.get(from..from + size)`, interprets it, recurses into the next state
on `&str[from + size..]`, and finally commits the field with `set`.  The
`fuel` argument makes the recursion structural; it only needs to cover
`st.rank`, the length of the remaining state chain, so the fallback
branches are never taken when `st.rank ≤ fuel` (`parse` below supplies
fuel 6, enough for every state). -/
def DateTimeValues.parseAux : Nat → DateTimeValues → Str → ParserState → DateTimeValues
  | 0, v, _, _ => v
  | fuel + 1, v, s, st =>
    if st = ParserState.Timezone then
      { v with timezone := TimezoneValues.parse v.timezone s TimezoneParserState.Sign }
    else
      match st.parse_from s with
      | none => v
      | some f =>
        match (strGet s f (f + st.size)).bind st.parse with
        | none => v
        | some field =>
          (match st.next with
           | some nxt => DateTimeValues.parseAux fuel v (s.drop (f + st.size)) nxt
           | none => v).set field

/-- Rust `DateTimeValues::parse`, entered at any state.  Fuel `6 + 1`
covers the whole chain (`st.rank < 6 + 1` for every state). -/
def DateTimeValues.parse (v : DateTimeValues) (s : Str) (st : ParserState) :
    DateTimeValues :=
  DateTimeValues.parseAux (6 + 1) v s st

/-- Rust `DateTimeValues::from`: parse from defaults, starting at `Year`. -/
def DateTimeValues.fromStr (s : Str) : DateTimeValues :=
  DateTimeValues.parse DateTimeValues.default s ParserState.Year

/-- Modelled from the spec: a fixed-offset calendar instant, the output of
the external Instant Constructor (chrono's `DateTime<FixedOffset>`), which
is not part of this repository.  It carries the six calendar/time fields
and the signed offset in seconds. -/
structure Instant where
  year : Int
  month : Nat
  date : Nat
  hours : Nat
  minutes : Nat
  seconds : Nat
  offsetSecs : Int
deriving DecidableEq, Repr

/-- Modelled from the spec: proleptic-Gregorian leap year rule used by the
external calendar validation. -/
def isLeapYear (y : Int) : Bool :=
  (y % 4 = 0 ∧ y % 100 ≠ 0) ∨ y % 400 = 0

/-- Modelled from the spec: days in a month of a given year. -/
def daysInMonth (y : Int) (m : Nat) : Nat :=
  match m with
  | 2 => if isLeapYear y then 29 else 28
  | 4 => 30
  | 6 => 30
  | 9 => 30
  | 11 => 30
  | _ => 31

/-- Modelled from the spec: the external Instant Constructor's calendar
validation (`with_ymd_and_hms(..).single()`) — the fields must form a real
date/time. -/
def validFields (year : Int) (month date hours minutes seconds : Nat) : Bool :=
  decide (1 ≤ month) && decide (month ≤ 12) && decide (1 ≤ date) &&
    decide (date ≤ daysInMonth year month) && decide (hours ≤ 23) &&
    decide (minutes ≤ 59) && decide (seconds ≤ 59)

/-- Modelled from the spec: chrono's `FixedOffset::east_opt` — the offset
must be strictly less than 24 hours in magnitude. -/
def east_opt (secs : Int) : Option Int :=
  if -86400 < secs ∧ secs < 86400 then some secs else none

/-- Modelled from the spec: the external Instant Constructor — accepts six
integer fields plus a signed offset in seconds and returns either a valid
instant or nothing. -/
def with_ymd_and_hms (off : Int) (year : Int)
    (month date hours minutes seconds : Nat) : Option Instant :=
  if validFields year month date hours minutes seconds then
    some { year := year, month := month, date := date, hours := hours,
           minutes := minutes, seconds := seconds, offsetSecs := off }
  else
    none

/-- Rust `parse_datetime`: aggregate the fields, then hand the aggregator
to the (spec-modelled) external Instant Constructor. -/
def parse_datetime (s : Str) : Option Instant :=
  let values := DateTimeValues.fromStr s
  (east_opt values.timezone.secs).bind (fun tz =>
    with_ymd_and_hms tz values.year values.month values.date values.hours
      values.minutes values.seconds)

/-! ## Spec-side instrumentation of the parser

These definitions mirror `parseAux` (and the timezone parser) step for
step, but compute auxiliary data about a run: a call-counting interpreter
(termination depth), the cumulative cut positions after each successful
main field (field boundaries), a full-consumption test, and the list of
aggregator snapshots after each mutation (for the atomicity invariant). -/

/-- Call-counting timezone parser: one unit of fuel per recursive call,
`none` on exhaustion; otherwise it computes exactly `TimezoneValues.parse`. -/
def tzSteps : Nat → TimezoneValues → Str → TimezoneParserState → Option TimezoneValues
  | 0, _, _, _ => none
  | fuel + 1, tz, s, TimezoneParserState.Sign =>
    match s with
    | [] => some tz
    | c :: rest =>
      if c = '+' ∨ c = '-' then
        tzSteps fuel { tz with sign := c = '+' } rest TimezoneParserState.Hours
      else some tz
  | fuel + 1, tz, s, TimezoneParserState.Hours =>
    match (strGet s 0 2).bind parseI32 with
    | some h =>
      match strGetFrom s 2 with
      | some rest => tzSteps fuel { tz with hours := h } rest TimezoneParserState.Minutes
      | none => some { tz with hours := h }
    | none => some tz
  | fuel + 1, tz, s, TimezoneParserState.Minutes =>
    match s with
    | [] => some tz
    | c :: rest =>
      if c = ':' then tzSteps fuel tz rest TimezoneParserState.Minutes
      else
        match (strGet (c :: rest) 0 2).bind parseI32 with
        | some m => some { tz with minutes := m }
        | none => some tz

/-- Call-counting main parser: one unit of fuel per recursive call (and one
for the hand-off into the timezone parser), `none` on exhaustion. -/
def parseSteps : Nat → DateTimeValues → Str → ParserState → Option DateTimeValues
  | 0, _, _, _ => none
  | fuel + 1, v, s, st =>
    if st = ParserState.Timezone then
      (tzSteps fuel v.timezone s TimezoneParserState.Sign).map
        (fun tz => { v with timezone := tz })
    else
      match st.parse_from s with
      | none => some v
      | some f =>
        match (strGet s f (f + st.size)).bind st.parse with
        | none => some v
        | some field =>
          (match st.next with
           | some nxt => parseSteps fuel v (s.drop (f + st.size)) nxt
           | none => some v).map (fun (w : DateTimeValues) => w.set field)

/-- Cumulative cut positions after each successfully read main field,
mirroring `parseAux`. -/
def bndAux : Nat → Str → ParserState → List Nat
  | 0, _, _ => []
  | fuel + 1, s, st =>
    if st = ParserState.Timezone then []
    else
      match st.parse_from s with
      | none => []
      | some f =>
        match (strGet s f (f + st.size)).bind st.parse with
        | none => []
        | some _ =>
          match st.next with
          | some nxt =>
            (f + st.size) ::
              (bndAux fuel (s.drop (f + st.size)) nxt).map (fun b => b + (f + st.size))
          | none => [f + st.size]

/-- Field-boundary positions of a full parse from the `Year` state. -/
def parseBoundaries (s : Str) : List Nat :=
  bndAux (6 + 1) s ParserState.Year

/-- Fields `lo ≤ i < hi` (in chain order year = 0 … timezone = 6) taken
from `w`, all others from `v`. -/
def blend (v w : DateTimeValues) (lo hi : Nat) : DateTimeValues :=
  { year := if lo ≤ 0 ∧ 0 < hi then w.year else v.year,
    month := if lo ≤ 1 ∧ 1 < hi then w.month else v.month,
    date := if lo ≤ 2 ∧ 2 < hi then w.date else v.date,
    hours := if lo ≤ 3 ∧ 3 < hi then w.hours else v.hours,
    minutes := if lo ≤ 4 ∧ 4 < hi then w.minutes else v.minutes,
    seconds := if lo ≤ 5 ∧ 5 < hi then w.seconds else v.seconds,
    timezone := if lo ≤ 6 ∧ 6 < hi then w.timezone else v.timezone }

/-- Does the parse starting at `st` read every main field down the chain
and consume the string exactly up to the timezone hand-off? -/
def consumesAllAux : Nat → Str → ParserState → Bool
  | 0, _, _ => false
  | fuel + 1, s, st =>
    if st = ParserState.Timezone then s.isEmpty
    else
      match st.parse_from s with
      | none => false
      | some f =>
        match (strGet s f (f + st.size)).bind st.parse with
        | none => false
        | some _ =>
          match st.next with
          | some nxt => consumesAllAux fuel (s.drop (f + st.size)) nxt
          | none => false

/-- The whole string is consumed by the six main fields (year … seconds). -/
def throughSeconds (s : Str) : Bool :=
  consumesAllAux (6 + 1) s ParserState.Year

/-- Aggregator snapshots of the timezone record after each mutation of
`parse_minutes`. -/
def minutesTrace (tz : TimezoneValues) : Str → List TimezoneValues
  | [] => []
  | c :: rest =>
    if c = ':' then
      minutesTrace tz rest
    else
      match (strGet (c :: rest) 0 2).bind parseI32 with
      | some m => [{ tz with minutes := m }]
      | none => []

/-- Snapshots after each mutation of `parse_hours` (the hours write, then
whatever `parse_minutes` writes). -/
def hoursTrace (tz : TimezoneValues) (s : Str) : List TimezoneValues :=
  match (strGet s 0 2).bind parseI32 with
  | some h =>
    match strGetFrom s 2 with
    | some rest => { tz with hours := h } :: minutesTrace { tz with hours := h } rest
    | none => [{ tz with hours := h }]
  | none => []

/-- Snapshots after each mutation of `parse_sign`. -/
def signTrace (tz : TimezoneValues) : Str → List TimezoneValues
  | [] => []
  | c :: rest =>
    if c = '+' ∨ c = '-' then
      { tz with sign := c = '+' } :: hoursTrace { tz with sign := c = '+' } rest
    else []

/-- Aggregator snapshots after each mutation of the main parse: the
recursion mutates first (deeper fields), then the current field is
committed by `set`. -/
def parseTraceAux : Nat → DateTimeValues → Str → ParserState → List DateTimeValues
  | 0, _, _, _ => []
  | fuel + 1, v, s, st =>
    if st = ParserState.Timezone then
      (signTrace v.timezone s).map (fun tz => { v with timezone := tz })
    else
      match st.parse_from s with
      | none => []
      | some f =>
        match (strGet s f (f + st.size)).bind st.parse with
        | none => []
        | some field =>
          match st.next with
          | some nxt =>
            parseTraceAux fuel v (s.drop (f + st.size)) nxt ++
              [(DateTimeValues.parseAux fuel v (s.drop (f + st.size)) nxt).set field]
          | none => [v.set field]

/-- All aggregator states passed through while parsing `s` from scratch. -/
def parseTrace (s : Str) : List DateTimeValues :=
  parseTraceAux (6 + 1) DateTimeValues.default s ParserState.Year

/-- The timezone components hold defaults or successfully parsed values:
the sign comes from a `+`/`-` character, hour and minute from a
two-character substring accepted by the signed integer parser. -/
def TzOk (tz : TimezoneValues) : Prop :=
  (tz.sign = true ∨ ∃ c : Char, (c = '+' ∨ c = '-') ∧ tz.sign = decide (c = '+')) ∧
  (tz.hours = 0 ∨ ∃ sub : Str, (strGet sub 0 2).bind parseI32 = some tz.hours) ∧
  (tz.minutes = 0 ∨ ∃ sub : Str, (strGet sub 0 2).bind parseI32 = some tz.minutes)

/-- Every aggregator field holds its default or a value whose substring
parsed successfully under that field's parsing rule. -/
def FieldOk (v : DateTimeValues) : Prop :=
  (v.year = 1970 ∨
    ∃ sub : Str, ParserState.Year.parse sub = some (DateTimeField.Year v.year)) ∧
  (v.month = 1 ∨
    ∃ sub : Str, ParserState.Month.parse sub = some (DateTimeField.Month v.month)) ∧
  (v.date = 1 ∨
    ∃ sub : Str, ParserState.Date.parse sub = some (DateTimeField.Date v.date)) ∧
  (v.hours = 0 ∨
    ∃ sub : Str, ParserState.Hours.parse sub = some (DateTimeField.Hours v.hours)) ∧
  (v.minutes = 0 ∨
    ∃ sub : Str, ParserState.Minutes.parse sub = some (DateTimeField.Minutes v.minutes)) ∧
  (v.seconds = 0 ∨
    ∃ sub : Str, ParserState.Seconds.parse sub = some (DateTimeField.Seconds v.seconds)) ∧
  TzOk v.timezone

/-! ## Helper lemmas about the string primitives -/

theorem strGet_eq_some {s u : Str} {a b : Nat} (h : strGet s a b = some u) :
    a ≤ b ∧ b ≤ s.length ∧ u = (s.drop a).take (b - a) := by
  unfold strGet at h
  split at h
  · rename_i hc
    exact ⟨hc.1, hc.2, (Option.some_inj.mp h).symm⟩
  · exact absurd h (by simp)

theorem strGet_of_le {s : Str} {a b : Nat} (h1 : a ≤ b) (h2 : b ≤ s.length) :
    strGet s a b = some ((s.drop a).take (b - a)) := by
  unfold strGet
  rw [if_pos ⟨h1, h2⟩]

theorem strGet_take {s : Str} {a b m : Nat} (hbm : b ≤ m) :
    strGet (s.take m) a b = strGet s a b := by
  unfold strGet
  rcases le_or_lt b s.length with hb | hb
  · rw [List.length_take]
    have hmin : b ≤ min m s.length := le_min (le_trans hbm (le_refl m)) hb
    by_cases hab : a ≤ b
    · rw [if_pos ⟨hab, hmin⟩, if_pos ⟨hab, hb⟩]
      congr 1
      rw [List.drop_take]
      rw [List.take_take]
      congr 1
      omega
    · rw [if_neg (by tauto), if_neg (by tauto)]
  · rw [List.length_take]
    rw [if_neg (by omega), if_neg (by omega)]

theorem strGet_append {s t : Str} {a b : Nat} (hb : b ≤ s.length) :
    strGet (s ++ t) a b = strGet s a b := by
  unfold strGet
  rw [List.length_append]
  by_cases hab : a ≤ b
  · rw [if_pos ⟨hab, by omega⟩, if_pos ⟨hab, hb⟩]
    congr 1
    rw [List.drop_append_eq_append_drop]
    rw [List.take_append_eq_append_take]
    have h1 : a - s.length = 0 := by omega
    have h2 : b - a - (s.drop a).length = 0 := by
      rw [List.length_drop]; omega
    rw [h1, h2]
    simp
  · rw [if_neg (by tauto), if_neg (by tauto)]

theorem strGet_cons_one (c : Char) (rest : Str) :
    strGet (c :: rest) 0 1 = some [c] := by
  simp [strGet]

/-- The parser never changes on the empty remainder: every state halts. -/
theorem parseAux_nil (fuel : Nat) (v : DateTimeValues) (st : ParserState) :
    DateTimeValues.parseAux fuel v [] st = v := by
  cases fuel with
  | zero => rfl
  | succ fuel => cases st <;> rfl

/-- `parse_minutes` only ever writes the minutes component. -/
theorem parse_minutes_frame (s : Str) (tz : TimezoneValues) :
    (tz.parse_minutes s).sign = tz.sign ∧ (tz.parse_minutes s).hours = tz.hours := by
  induction s generalizing tz with
  | nil => exact ⟨rfl, rfl⟩
  | cons c rest ih =>
    rw [TimezoneValues.parse_minutes]
    by_cases hc : c = ':'
    · rw [if_pos hc]; exact ih tz
    · rw [if_neg hc]
      cases h : (strGet (c :: rest) 0 2).bind parseI32 <;> simp

/-- A successful `next` strictly descends the state chain. -/
theorem rank_next {st nxt : ParserState} (h : st.next = some nxt) :
    nxt.rank < st.rank := by
  cases st <;> simp [ParserState.next] at h <;> subst h <;> decide

/-- One unfolding of `parseAux` at a non-`Timezone` state. -/
theorem parseAux_step {st : ParserState} (hst : ¬ st = ParserState.Timezone)
    (fuel : Nat) (v : DateTimeValues) (s : Str) :
    DateTimeValues.parseAux (fuel + 1) v s st =
      match st.parse_from s with
      | none => v
      | some f =>
        match (strGet s f (f + st.size)).bind st.parse with
        | none => v
        | some field =>
          (match st.next with
           | some nxt => DateTimeValues.parseAux fuel v (s.drop (f + st.size)) nxt
           | none => v).set field := by
  rw [DateTimeValues.parseAux]
  rw [if_neg hst]

/-- One unfolding of `parseAux` at the `Timezone` state. -/
theorem parseAux_timezone (fuel : Nat) (v : DateTimeValues) (s : Str) :
    DateTimeValues.parseAux (fuel + 1) v s ParserState.Timezone =
      { v with timezone := TimezoneValues.parse v.timezone s TimezoneParserState.Sign } := by
  rw [DateTimeValues.parseAux]
  rw [if_pos rfl]

/-- Every non-`Timezone` state has a successor one step down the chain. -/
theorem next_of_ne_tz {st : ParserState} (h : ¬ st = ParserState.Timezone) :
    ∃ nxt, st.next = some nxt ∧ st.rank = nxt.rank + 1 ∧ nxt.idx = st.idx + 1 := by
  cases st
  case Timezone => exact absurd rfl h
  all_goals exact ⟨_, rfl, rfl, rfl⟩

theorem size_pos (st : ParserState) : 1 ≤ st.size := by
  cases st <;> decide

/-- `parseAux` does not depend on the fuel once it covers the state chain. -/
theorem parseAux_irrel (fuel : Nat) :
    ∀ (fuel' : Nat) (v : DateTimeValues) (s : Str) (st : ParserState),
      st.rank < fuel → st.rank < fuel' →
      DateTimeValues.parseAux fuel v s st = DateTimeValues.parseAux fuel' v s st := by
  induction fuel with
  | zero =>
    intro fuel' v s st h h'
    omega
  | succ fuel ih =>
    intro fuel' v s st h h'
    cases fuel' with
    | zero => omega
    | succ fuel' =>
      by_cases hst : st = ParserState.Timezone
      · subst hst
        rw [parseAux_timezone, parseAux_timezone]
      · rw [parseAux_step hst, parseAux_step hst]
        obtain ⟨nxt, hnxt, hrank, _⟩ := next_of_ne_tz hst
        cases hpf : st.parse_from s with
        | none => rfl
        | some f =>
          dsimp only
          cases hfd : (strGet s f (f + st.size)).bind st.parse with
          | none => rfl
          | some field =>
            dsimp only
            simp only [hnxt]
            rw [ih fuel' v (s.drop (f + st.size)) nxt (by omega) (by omega)]

theorem rank_le_six (st : ParserState) : st.rank ≤ 6 := by
  cases st <;> decide

/-- The step-counted timezone parser succeeds within `length + 1` calls. -/
theorem tzSteps_complete :
    ∀ (fuel : Nat) (tz : TimezoneValues) (s : Str) (tst : TimezoneParserState),
      s.length < fuel →
      tzSteps fuel tz s tst = some (TimezoneValues.parse tz s tst) := by
  intro fuel
  induction fuel with
  | zero =>
    intro tz s tst h
    omega
  | succ fuel ih =>
    intro tz s tst h
    cases tst with
    | Sign =>
      cases s with
      | nil => rfl
      | cons c rest =>
        by_cases hc : c = '+' ∨ c = '-'
        · simp only [tzSteps, TimezoneValues.parse, TimezoneValues.parse_sign, if_pos hc]
          have := ih { tz with sign := decide (c = '+') } rest TimezoneParserState.Hours
            (by simp only [List.length_cons] at h; omega)
          simpa [TimezoneValues.parse] using this
        · simp only [tzSteps, TimezoneValues.parse, TimezoneValues.parse_sign, if_neg hc]
    | Hours =>
      cases hh : (strGet s 0 2).bind parseI32 with
      | none => simp only [tzSteps, TimezoneValues.parse, TimezoneValues.parse_hours, hh]
      | some hval =>
        have hsub : ∃ u, strGet s 0 2 = some u := by
          cases hsg : strGet s 0 2 with
          | none => rw [hsg] at hh; simp at hh
          | some u => exact ⟨u, rfl⟩
        obtain ⟨u, hu⟩ := hsub
        have h2 : 2 ≤ s.length := (strGet_eq_some hu).2.1
        have hrest : strGetFrom s 2 = some (s.drop 2) := by
          unfold strGetFrom
          rw [if_pos h2]
        simp only [tzSteps, TimezoneValues.parse, TimezoneValues.parse_hours, hh, hrest]
        have := ih { tz with hours := hval } (s.drop 2) TimezoneParserState.Minutes
          (by rw [List.length_drop]; omega)
        simpa [TimezoneValues.parse] using this
    | Minutes =>
      cases s with
      | nil => rfl
      | cons c rest =>
        by_cases hc : c = ':'
        · simp only [tzSteps, TimezoneValues.parse, TimezoneValues.parse_minutes, if_pos hc]
          have := ih tz rest TimezoneParserState.Minutes
            (by simp only [List.length_cons] at h; omega)
          simpa [TimezoneValues.parse] using this
        · simp only [tzSteps, TimezoneValues.parse, TimezoneValues.parse_minutes, if_neg hc]
          cases hm : (strGet (c :: rest) 0 2).bind parseI32 <;> simp [hm]

/-- The step-counted main parser succeeds within `length + 7` calls. -/
theorem parseSteps_complete :
    ∀ (fuel : Nat) (v : DateTimeValues) (s : Str) (st : ParserState),
      s.length + 7 ≤ fuel →
      parseSteps fuel v s st = some (DateTimeValues.parse v s st) := by
  intro fuel
  induction fuel with
  | zero =>
    intro v s st h
    omega
  | succ fuel ih =>
    intro v s st h
    by_cases hst : st = ParserState.Timezone
    · subst hst
      rw [parseSteps]
      rw [if_pos rfl]
      rw [tzSteps_complete fuel v.timezone s TimezoneParserState.Sign (by omega)]
      rw [DateTimeValues.parse, parseAux_timezone]
      rfl
    · obtain ⟨nxt, hnxt, hrank, _⟩ := next_of_ne_tz hst
      have hstep : DateTimeValues.parse v s st =
          match st.parse_from s with
          | none => v
          | some f =>
            match (strGet s f (f + st.size)).bind st.parse with
            | none => v
            | some field =>
              (DateTimeValues.parseAux 6 v (s.drop (f + st.size)) nxt).set field := by
        rw [DateTimeValues.parse, parseAux_step hst]
        cases hpf : st.parse_from s with
        | none => rfl
        | some f =>
          dsimp only
          cases hfd : (strGet s f (f + st.size)).bind st.parse with
          | none => rfl
          | some field =>
            dsimp only
            rw [hnxt]
      rw [hstep]
      rw [parseSteps]
      rw [if_neg hst]
      cases hpf : st.parse_from s with
      | none => rfl
      | some f =>
        dsimp only
        cases hfd : (strGet s f (f + st.size)).bind st.parse with
        | none => rfl
        | some field =>
          dsimp only
          rw [hnxt]
          dsimp only
          have hg : ∃ u, strGet s f (f + st.size) = some u := by
            cases hsg : strGet s f (f + st.size) with
            | none => rw [hsg] at hfd; simp at hfd
            | some u => exact ⟨u, rfl⟩
          obtain ⟨u, hu⟩ := hg
          have hfs : f + st.size ≤ s.length := (strGet_eq_some hu).2.1
          have hsz := size_pos st
          have hlen : (s.drop (f + st.size)).length + 7 ≤ fuel := by
            rw [List.length_drop]
            omega
          rw [ih v (s.drop (f + st.size)) nxt hlen]
          have hirr := parseAux_irrel (6 + 1) 6 v (s.drop (f + st.size)) nxt
            (by have := rank_le_six nxt; omega)
            (by have := rank_le_six st; omega)
          rw [DateTimeValues.parse, hirr]
          rfl

/-- Committing a non-timezone field commutes with overwriting the
timezone. -/
theorem set_timezone_comm {st : ParserState} (hst : ¬ st = ParserState.Timezone)
    {sub : Str} {field : DateTimeField} (hfd : st.parse sub = some field)
    (X : DateTimeValues) (tz : TimezoneValues) :
    DateTimeValues.set { X with timezone := tz } field =
      { DateTimeValues.set X field with timezone := tz } := by
  cases st
  case Timezone => exact absurd rfl hst
  all_goals
    simp only [ParserState.parse, Option.map_eq_some'] at hfd
  all_goals
    obtain ⟨val, -, hfe⟩ := hfd
  all_goals
    subst hfe
  all_goals
    rfl

theorem parse_from_append {st : ParserState} {s t : Str} (hs : 1 ≤ s.length) :
    st.parse_from (s ++ t) = st.parse_from s := by
  unfold ParserState.parse_from
  cases st.sepOf with
  | none => rfl
  | some sep => cases sep <;> rw [strGet_append hs]

theorem drop_append_of_le {s t : Str} {n : Nat} (h : n ≤ s.length) :
    List.drop n (s ++ t) = List.drop n s ++ t := by
  rw [List.drop_append_eq_append_drop]
  have h0 : n - s.length = 0 := by omega
  rw [h0, List.drop_zero]

/-- When the main chain consumes `s` exactly, parsing `s ++ t` gives the
same main fields and hands `t` to the timezone parser. -/
theorem parseAux_append :
    ∀ (fuel : Nat) (v : DateTimeValues) (s t : Str) (st : ParserState),
      consumesAllAux fuel s st = true →
      DateTimeValues.parseAux fuel v (s ++ t) st =
        { DateTimeValues.parseAux fuel v s st with
            timezone := TimezoneValues.parse v.timezone t TimezoneParserState.Sign } := by
  intro fuel
  induction fuel with
  | zero =>
    intro v s t st hc
    simp [consumesAllAux] at hc
  | succ fuel ih =>
    intro v s t st hc
    by_cases hst : st = ParserState.Timezone
    · subst hst
      cases s with
      | cons c rest => simp [consumesAllAux] at hc
      | nil =>
        rw [List.nil_append]
        rw [parseAux_timezone, parseAux_timezone]
    · obtain ⟨nxt, hnxt, hrank, _⟩ := next_of_ne_tz hst
      rw [consumesAllAux] at hc
      rw [if_neg hst] at hc
      cases hpf : st.parse_from s with
      | none => rw [hpf] at hc; simp at hc
      | some f =>
        rw [hpf] at hc
        dsimp only at hc
        cases hfd : (strGet s f (f + st.size)).bind st.parse with
        | none => rw [hfd] at hc; simp at hc
        | some field =>
          rw [hfd] at hc
          dsimp only at hc
          rw [hnxt] at hc
          dsimp only at hc
          have hg : ∃ u, strGet s f (f + st.size) = some u := by
            cases hsg : strGet s f (f + st.size) with
            | none => rw [hsg] at hfd; simp at hfd
            | some u => exact ⟨u, rfl⟩
          obtain ⟨u, hu⟩ := hg
          have hfd' : st.parse u = some field := by
            rw [hu] at hfd
            simpa using hfd
          have hfs : f + st.size ≤ s.length := (strGet_eq_some hu).2.1
          have h1 : 1 ≤ s.length := by
            have := size_pos st
            omega
          rw [parseAux_step hst, parseAux_step hst]
          rw [parse_from_append h1, hpf]
          dsimp only
          rw [strGet_append hfs, hfd]
          dsimp only
          rw [hnxt]
          dsimp only
          rw [drop_append_of_le hfs]
          rw [ih v (s.drop (f + st.size)) t nxt hc]
          exact set_timezone_comm hst hfd' _ _

theorem parse_from_take {st : ParserState} {s : Str} {m : Nat} (hm : 1 ≤ m) :
    st.parse_from (s.take m) = st.parse_from s := by
  unfold ParserState.parse_from
  cases st.sepOf with
  | none => rfl
  | some sep => cases sep <;> rw [strGet_take hm]

theorem drop_take_self (n : Nat) (s : Str) : List.drop n (List.take n s) = [] := by
  rw [List.drop_take, Nat.sub_self, List.take_zero]

theorem drop_take_comm (n b : Nat) (s : Str) :
    List.drop n (List.take (b + n) s) = List.take b (List.drop n s) := by
  rw [List.drop_take]
  congr 1
  omega

/-- Committing a field is the same as blending it alone into `v`. -/
theorem blend_set_zero {st : ParserState} (hst : ¬ st = ParserState.Timezone)
    {sub : Str} {field : DateTimeField} (hfd : st.parse sub = some field)
    (v W : DateTimeValues) :
    v.set field = blend v (W.set field) st.idx (st.idx + 1) := by
  cases st
  case Timezone => exact absurd rfl hst
  all_goals
    simp only [ParserState.parse, Option.map_eq_some'] at hfd
  all_goals
    obtain ⟨val, -, hfe⟩ := hfd
  all_goals
    subst hfe
  all_goals
    simp [DateTimeValues.set, blend, ParserState.idx]

/-- Committing a field commutes with blending the deeper fields. -/
theorem blend_set_succ {st : ParserState} (hst : ¬ st = ParserState.Timezone)
    {sub : Str} {field : DateTimeField} (hfd : st.parse sub = some field)
    (v W : DateTimeValues) (m : Nat) (hm : st.idx + 1 ≤ m) :
    DateTimeValues.set (blend v W (st.idx + 1) m) field =
      blend v (DateTimeValues.set W field) st.idx m := by
  cases st
  case Timezone => exact absurd rfl hst
  all_goals
    simp only [ParserState.parse, Option.map_eq_some'] at hfd
  all_goals
    obtain ⟨val, -, hfe⟩ := hfd
  all_goals
    subst hfe
  all_goals
    simp only [DateTimeValues.set, blend, ParserState.idx, DateTimeValues.mk.injEq] at hm ⊢
  all_goals
    refine ⟨?_, ?_, ?_, ?_, ?_, ?_, ?_⟩ <;> split_ifs <;> first | rfl | omega

/-- There are at most as many boundaries as remaining states. -/
theorem bndAux_length_le :
    ∀ (fuel : Nat) (s : Str) (st : ParserState), (bndAux fuel s st).length ≤ st.rank := by
  intro fuel
  induction fuel with
  | zero =>
    intro s st
    simp [bndAux]
  | succ fuel ih =>
    intro s st
    by_cases hst : st = ParserState.Timezone
    · subst hst
      simp [bndAux]
    · obtain ⟨nxt, hnxt, hrank, _⟩ := next_of_ne_tz hst
      rw [bndAux]
      rw [if_neg hst]
      cases hpf : st.parse_from s with
      | none => simp
      | some f =>
        dsimp only
        cases hfd : (strGet s f (f + st.size)).bind st.parse with
        | none => simp
        | some field =>
          dsimp only
          rw [hnxt]
          dsimp only
          rw [List.length_cons, List.length_map]
          have := ih (s.drop (f + st.size)) nxt
          omega

/-- Truncating the input at the `k`-th field boundary parses exactly the
first `k + 1` fields of the chain to the same values, leaving every later
field at the incoming aggregator's value. -/
theorem parseAux_take_boundary :
    ∀ (fuel : Nat) (v : DateTimeValues) (s : Str) (st : ParserState) (k b : Nat),
      (bndAux fuel s st)[k]? = some b →
      DateTimeValues.parseAux fuel v (s.take b) st =
        blend v (DateTimeValues.parseAux fuel v s st) st.idx (st.idx + k + 1) := by
  intro fuel
  induction fuel with
  | zero =>
    intro v s st k b hb
    simp [bndAux] at hb
  | succ fuel ih =>
    intro v s st k b hb
    by_cases hst : st = ParserState.Timezone
    · subst hst
      simp [bndAux] at hb
    · obtain ⟨nxt, hnxt, hrank, hidx⟩ := next_of_ne_tz hst
      rw [bndAux] at hb
      rw [if_neg hst] at hb
      cases hpf : st.parse_from s with
      | none => rw [hpf] at hb; simp at hb
      | some f =>
        rw [hpf] at hb
        dsimp only at hb
        cases hfd : (strGet s f (f + st.size)).bind st.parse with
        | none => rw [hfd] at hb; simp at hb
        | some field =>
          rw [hfd] at hb
          dsimp only at hb
          rw [hnxt] at hb
          dsimp only at hb
          have hg : ∃ u, strGet s f (f + st.size) = some u := by
            cases hsg : strGet s f (f + st.size) with
            | none => rw [hsg] at hfd; simp at hfd
            | some u => exact ⟨u, rfl⟩
          obtain ⟨u, hu⟩ := hg
          have hfd' : st.parse u = some field := by
            rw [hu] at hfd
            simpa using hfd
          have hfs : f + st.size ≤ s.length := (strGet_eq_some hu).2.1
          have hsz := size_pos st
          have hR : DateTimeValues.parseAux (fuel + 1) v s st =
              (DateTimeValues.parseAux fuel v (s.drop (f + st.size)) nxt).set field := by
            rw [parseAux_step hst, hpf]
            dsimp only
            rw [hfd]
            dsimp only
            rw [hnxt]
          cases k with
          | zero =>
            have hbv : b = f + st.size := by
              have := hb
              simp only [List.getElem?_cons_zero, Option.some_inj] at this
              omega
            subst hbv
            have hL : DateTimeValues.parseAux (fuel + 1) v (s.take (f + st.size)) st =
                v.set field := by
              rw [parseAux_step hst]
              rw [parse_from_take (by omega), hpf]
              dsimp only
              rw [strGet_take (le_refl _), hfd]
              dsimp only
              rw [hnxt]
              dsimp only
              rw [drop_take_self, parseAux_nil]
            rw [hL, hR]
            exact blend_set_zero hst hfd' v _
          | succ k' =>
            have hb' : ∃ b', (bndAux fuel (s.drop (f + st.size)) nxt)[k']? = some b' ∧
                b = b' + (f + st.size) := by
              simp only [List.getElem?_cons_succ, List.getElem?_map] at hb
              rcases Option.map_eq_some'.mp hb with ⟨b', hb1, hb2⟩
              exact ⟨b', hb1, hb2.symm⟩
            obtain ⟨b', hb', rfl⟩ := hb'
            have hL : DateTimeValues.parseAux (fuel + 1) v (s.take (b' + (f + st.size))) st =
                (DateTimeValues.parseAux fuel v ((s.drop (f + st.size)).take b') nxt).set
                  field := by
              rw [parseAux_step hst]
              rw [parse_from_take (by omega), hpf]
              dsimp only
              rw [strGet_take (by omega), hfd]
              dsimp only
              rw [hnxt]
              dsimp only
              rw [drop_take_comm]
            rw [hL, hR]
            rw [ih v (s.drop (f + st.size)) nxt k' b' hb']
            rw [hidx]
            have hmeq : st.idx + 1 + k' + 1 = st.idx + (k' + 1) + 1 := by omega
            rw [hmeq]
            exact blend_set_succ hst hfd' v _ _ (by omega)

theorem daysInMonth_pos (y : Int) (m : Nat) : 1 ≤ daysInMonth y m := by
  unfold daysInMonth
  split <;> first | omega | (split <;> omega)

/-- Calendar validity survives blending with the defaults. -/
theorem validFields_blend (w : DateTimeValues) (n : Nat)
    (hv : validFields w.year w.month w.date w.hours w.minutes w.seconds = true) :
    validFields (blend DateTimeValues.default w 0 n).year
      (blend DateTimeValues.default w 0 n).month
      (blend DateTimeValues.default w 0 n).date
      (blend DateTimeValues.default w 0 n).hours
      (blend DateTimeValues.default w 0 n).minutes
      (blend DateTimeValues.default w 0 n).seconds = true := by
  simp only [validFields, Bool.and_eq_true, decide_eq_true_eq] at hv ⊢
  obtain ⟨⟨⟨⟨⟨⟨h1, h2⟩, h3⟩, h4⟩, h5⟩, h6⟩, h7⟩ := hv
  simp only [blend, DateTimeValues.default]
  refine ⟨⟨⟨⟨⟨⟨?_, ?_⟩, ?_⟩, ?_⟩, ?_⟩, ?_⟩, ?_⟩ <;>
    split_ifs <;> first | assumption | exact daysInMonth_pos _ _ | omega

theorem tzok_default : TzOk TimezoneValues.default :=
  ⟨Or.inl rfl, Or.inl rfl, Or.inl rfl⟩

theorem fieldok_default : FieldOk DateTimeValues.default :=
  ⟨Or.inl rfl, Or.inl rfl, Or.inl rfl, Or.inl rfl, Or.inl rfl, Or.inl rfl, tzok_default⟩

theorem tzok_parse_minutes :
    ∀ (s : Str) (tz : TimezoneValues), TzOk tz → TzOk (tz.parse_minutes s) := by
  intro s
  induction s with
  | nil => intro tz h; exact h
  | cons c rest ih =>
    intro tz h
    rw [TimezoneValues.parse_minutes]
    by_cases hc : c = ':'
    · rw [if_pos hc]
      exact ih tz h
    · rw [if_neg hc]
      cases hm : (strGet (c :: rest) 0 2).bind parseI32 with
      | none => exact h
      | some m => exact ⟨h.1, h.2.1, Or.inr ⟨c :: rest, hm⟩⟩

theorem tzok_minutesTrace :
    ∀ (s : Str) (tz : TimezoneValues), TzOk tz → ∀ w ∈ minutesTrace tz s, TzOk w := by
  intro s
  induction s with
  | nil => intro tz h w hw; simp [minutesTrace] at hw
  | cons c rest ih =>
    intro tz h w hw
    rw [minutesTrace] at hw
    by_cases hc : c = ':'
    · rw [if_pos hc] at hw
      exact ih tz h w hw
    · rw [if_neg hc] at hw
      cases hm : (strGet (c :: rest) 0 2).bind parseI32 with
      | none => rw [hm] at hw; simp at hw
      | some m =>
        rw [hm] at hw
        simp only [List.mem_singleton] at hw
        subst hw
        exact ⟨h.1, h.2.1, Or.inr ⟨c :: rest, hm⟩⟩

theorem tzok_parse_hours (s : Str) (tz : TimezoneValues) (h : TzOk tz) :
    TzOk (tz.parse_hours s) := by
  rw [TimezoneValues.parse_hours]
  cases hh : (strGet s 0 2).bind parseI32 with
  | none => exact h
  | some hv =>
    have hok : TzOk { tz with hours := hv } := ⟨h.1, Or.inr ⟨s, hh⟩, h.2.2⟩
    cases hrest : strGetFrom s 2 with
    | none => exact hok
    | some rest => exact tzok_parse_minutes rest _ hok

theorem tzok_hoursTrace (s : Str) (tz : TimezoneValues) (h : TzOk tz) :
    ∀ w ∈ hoursTrace tz s, TzOk w := by
  intro w hw
  rw [hoursTrace] at hw
  cases hh : (strGet s 0 2).bind parseI32 with
  | none => rw [hh] at hw; simp at hw
  | some hv =>
    rw [hh] at hw
    have hok : TzOk { tz with hours := hv } := ⟨h.1, Or.inr ⟨s, hh⟩, h.2.2⟩
    cases hrest : strGetFrom s 2 with
    | none =>
      rw [hrest] at hw
      simp only [List.mem_singleton] at hw
      subst hw
      exact hok
    | some rest =>
      rw [hrest] at hw
      simp only [List.mem_cons] at hw
      rcases hw with rfl | hw
      · exact hok
      · exact tzok_minutesTrace rest _ hok w hw

theorem tzok_parse_sign (s : Str) (tz : TimezoneValues) (h : TzOk tz) :
    TzOk (tz.parse_sign s) := by
  cases s with
  | nil => exact h
  | cons c rest =>
    rw [TimezoneValues.parse_sign]
    by_cases hc : c = '+' ∨ c = '-'
    · rw [if_pos hc]
      exact tzok_parse_hours rest _ ⟨Or.inr ⟨c, hc, rfl⟩, h.2.1, h.2.2⟩
    · rw [if_neg hc]
      exact h

theorem tzok_signTrace (s : Str) (tz : TimezoneValues) (h : TzOk tz) :
    ∀ w ∈ signTrace tz s, TzOk w := by
  cases s with
  | nil => intro w hw; simp [signTrace] at hw
  | cons c rest =>
    intro w hw
    rw [signTrace] at hw
    by_cases hc : c = '+' ∨ c = '-'
    · rw [if_pos hc] at hw
      have hok : TzOk { tz with sign := decide (c = '+') } :=
        ⟨Or.inr ⟨c, hc, rfl⟩, h.2.1, h.2.2⟩
      simp only [List.mem_cons] at hw
      rcases hw with rfl | hw
      · exact hok
      · exact tzok_hoursTrace rest _ hok w hw
    · rw [if_neg hc] at hw
      simp at hw

/-- Committing a successfully parsed field preserves the invariant. -/
theorem fieldok_set {st : ParserState} (hst : ¬ st = ParserState.Timezone)
    {sub : Str} {field : DateTimeField} (hfd : st.parse sub = some field)
    {v : DateTimeValues} (hok : FieldOk v) : FieldOk (v.set field) := by
  have hfd0 := hfd
  cases st
  case Timezone => exact absurd rfl hst
  case Year =>
    simp only [ParserState.parse, Option.map_eq_some'] at hfd
    obtain ⟨val, -, hfe⟩ := hfd
    subst hfe
    exact ⟨Or.inr ⟨sub, hfd0⟩, hok.2.1, hok.2.2.1, hok.2.2.2.1, hok.2.2.2.2.1,
      hok.2.2.2.2.2.1, hok.2.2.2.2.2.2⟩
  case Month =>
    simp only [ParserState.parse, Option.map_eq_some'] at hfd
    obtain ⟨val, -, hfe⟩ := hfd
    subst hfe
    exact ⟨hok.1, Or.inr ⟨sub, hfd0⟩, hok.2.2.1, hok.2.2.2.1, hok.2.2.2.2.1,
      hok.2.2.2.2.2.1, hok.2.2.2.2.2.2⟩
  case Date =>
    simp only [ParserState.parse, Option.map_eq_some'] at hfd
    obtain ⟨val, -, hfe⟩ := hfd
    subst hfe
    exact ⟨hok.1, hok.2.1, Or.inr ⟨sub, hfd0⟩, hok.2.2.2.1, hok.2.2.2.2.1,
      hok.2.2.2.2.2.1, hok.2.2.2.2.2.2⟩
  case Hours =>
    simp only [ParserState.parse, Option.map_eq_some'] at hfd
    obtain ⟨val, -, hfe⟩ := hfd
    subst hfe
    exact ⟨hok.1, hok.2.1, hok.2.2.1, Or.inr ⟨sub, hfd0⟩, hok.2.2.2.2.1,
      hok.2.2.2.2.2.1, hok.2.2.2.2.2.2⟩
  case Minutes =>
    simp only [ParserState.parse, Option.map_eq_some'] at hfd
    obtain ⟨val, -, hfe⟩ := hfd
    subst hfe
    exact ⟨hok.1, hok.2.1, hok.2.2.1, hok.2.2.2.1, Or.inr ⟨sub, hfd0⟩,
      hok.2.2.2.2.2.1, hok.2.2.2.2.2.2⟩
  case Seconds =>
    simp only [ParserState.parse, Option.map_eq_some'] at hfd
    obtain ⟨val, -, hfe⟩ := hfd
    subst hfe
    exact ⟨hok.1, hok.2.1, hok.2.2.1, hok.2.2.2.1, hok.2.2.2.2.1,
      Or.inr ⟨sub, hfd0⟩, hok.2.2.2.2.2.2⟩

/-- The parse result itself satisfies the invariant. -/
theorem fieldok_parseAux :
    ∀ (fuel : Nat) (v : DateTimeValues) (s : Str) (st : ParserState),
      FieldOk v → FieldOk (DateTimeValues.parseAux fuel v s st) := by
  intro fuel
  induction fuel with
  | zero => intro v s st h; exact h
  | succ fuel ih =>
    intro v s st h
    by_cases hst : st = ParserState.Timezone
    · subst hst
      rw [parseAux_timezone]
      exact ⟨h.1, h.2.1, h.2.2.1, h.2.2.2.1, h.2.2.2.2.1, h.2.2.2.2.2.1,
        tzok_parse_sign s v.timezone h.2.2.2.2.2.2⟩
    · rw [parseAux_step hst]
      cases hpf : st.parse_from s with
      | none => exact h
      | some f =>
        dsimp only
        cases hfd : (strGet s f (f + st.size)).bind st.parse with
        | none => exact h
        | some field =>
          dsimp only
          have hg : ∃ u, st.parse u = some field := by
            cases hsg : strGet s f (f + st.size) with
            | none => rw [hsg] at hfd; simp at hfd
            | some u =>
              rw [hsg] at hfd
              exact ⟨u, by simpa using hfd⟩
          obtain ⟨u, hfd'⟩ := hg
          cases hnx : st.next with
          | some nxt => exact fieldok_set hst hfd' (ih v _ nxt h)
          | none => exact fieldok_set hst hfd' h

/-- Every intermediate aggregator state satisfies the invariant. -/
theorem fieldok_trace :
    ∀ (fuel : Nat) (v : DateTimeValues) (s : Str) (st : ParserState),
      FieldOk v → ∀ w ∈ parseTraceAux fuel v s st, FieldOk w := by
  intro fuel
  induction fuel with
  | zero => intro v s st h w hw; simp [parseTraceAux] at hw
  | succ fuel ih =>
    intro v s st h w hw
    by_cases hst : st = ParserState.Timezone
    · subst hst
      rw [parseTraceAux] at hw
      rw [if_pos rfl] at hw
      simp only [List.mem_map] at hw
      obtain ⟨tz, htz, rfl⟩ := hw
      exact ⟨h.1, h.2.1, h.2.2.1, h.2.2.2.1, h.2.2.2.2.1, h.2.2.2.2.2.1,
        tzok_signTrace s v.timezone h.2.2.2.2.2.2 tz htz⟩
    · rw [parseTraceAux] at hw
      rw [if_neg hst] at hw
      cases hpf : st.parse_from s with
      | none => rw [hpf] at hw; simp at hw
      | some f =>
        rw [hpf] at hw
        dsimp only at hw
        cases hfd : (strGet s f (f + st.size)).bind st.parse with
        | none => rw [hfd] at hw; simp at hw
        | some field =>
          rw [hfd] at hw
          dsimp only at hw
          have hg : ∃ u, st.parse u = some field := by
            cases hsg : strGet s f (f + st.size) with
            | none => rw [hsg] at hfd; simp at hfd
            | some u =>
              rw [hsg] at hfd
              exact ⟨u, by simpa using hfd⟩
          obtain ⟨u, hfd'⟩ := hg
          cases hnx : st.next with
          | some nxt =>
            rw [hnx] at hw
            dsimp only at hw
            rw [List.mem_append] at hw
            rcases hw with hw | hw
            · exact ih v _ nxt h w hw
            · simp only [List.mem_singleton] at hw
              subst hw
              exact fieldok_set hst hfd' (fieldok_parseAux fuel v _ nxt h)
          | none =>
            rw [hnx] at hw
            dsimp only at hw
            simp only [List.mem_singleton] at hw
            subst hw
            exact fieldok_set hst hfd' h

theorem digitVal_le_nine {c : Char} {d : Nat} (h : digitVal c = some d) : d ≤ 9 := by
  unfold digitVal at h
  split at h
  · rename_i hc
    injection h with h
    omega
  · exact absurd h (by simp)

theorem digitVal_not_sign {c : Char} {d : Nat} (h : digitVal c = some d) :
    ¬ c = '+' ∧ ¬ c = '-' := by
  constructor <;> intro he <;> subst he <;> simp [digitVal] at h

/-- A 4-digit string goes through the signed `i32` parser as its decimal
value. -/
theorem parseI32_four_digits {c1 c2 c3 c4 : Char} {d1 d2 d3 d4 : Nat}
    (h1 : digitVal c1 = some d1) (h2 : digitVal c2 = some d2)
    (h3 : digitVal c3 = some d3) (h4 : digitVal c4 = some d4) :
    parseI32 [c1, c2, c3, c4] =
      some ((((d1 * 10 + d2) * 10 + d3) * 10 + d4 : Nat) : Int) := by
  obtain ⟨hp, hm⟩ := digitVal_not_sign h1
  have b1 := digitVal_le_nine h1
  have b2 := digitVal_le_nine h2
  have b3 := digitVal_le_nine h3
  have b4 := digitVal_le_nine h4
  simp only [parseI32]
  rw [if_neg hp, if_neg hm]
  simp only [parseDigits, parseDigitsAux, h1, h2, h3, h4]
  rw [Option.some_bind]
  rw [if_pos (by omega)]
  congr 1
  omega

/-! ## Claim theorems -/

/-- C1: a string of exactly four digits parses to that year with every
other field at its default — January 1st, midnight, UTC offset 0. -/
theorem c1_year_only (c1 c2 c3 c4 : Char) (d1 d2 d3 d4 : Nat)
    (h1 : digitVal c1 = some d1) (h2 : digitVal c2 = some d2)
    (h3 : digitVal c3 = some d3) (h4 : digitVal c4 = some d4) :
    parse_datetime [c1, c2, c3, c4] =
      some { year := (((d1 * 10 + d2) * 10 + d3) * 10 + d4 : Nat), month := 1, date := 1,
             hours := 0, minutes := 0, seconds := 0, offsetSecs := 0 } := by
  have hI := parseI32_four_digits h1 h2 h3 h4
  have hfrom : DateTimeValues.fromStr [c1, c2, c3, c4] =
      { year := (((d1 * 10 + d2) * 10 + d3) * 10 + d4 : Nat), month := 1, date := 1,
        hours := 0, minutes := 0, seconds := 0, timezone := TimezoneValues.default } := by
    unfold DateTimeValues.fromStr DateTimeValues.parse
    rw [parseAux_step (by decide)]
    simp [ParserState.parse_from, ParserState.sepOf, ParserState.size, ParserState.parse,
      ParserState.next, hI, strGet, parseAux_nil, DateTimeValues.set, DateTimeValues.default]
  simp [parse_datetime, hfrom, TimezoneValues.secs, TimezoneValues.default, east_opt,
    with_ymd_and_hms, validFields, daysInMonth]

/-- C1 (witness): `"2024"` parses to 2024-01-01T00:00:00+00:00. -/
theorem c1_year_only_witness :
    parse_datetime ['2', '0', '2', '4'] =
      some { year := (((2 * 10 + 0) * 10 + 2) * 10 + 4 : Nat), month := 1, date := 1,
             hours := 0, minutes := 0, seconds := 0, offsetSecs := 0 } :=
  c1_year_only '2' '0' '2' '4' 2 0 2 4 (by decide) (by decide) (by decide) (by decide)

/-- C2 (counterexample): at the `Hours` state, a remaining text whose first
character is neither `T` nor a space does not give prefix length 0 — the
prefix computation returns `none` and parsing halts, so the hour digits
are never read: `"2024-02-1114"` leaves the hour at its default 0. -/
theorem c2_hours_sep_counterexample :
    ParserState.parse_from ParserState.Hours ('1' :: '4' :: []) = none ∧
    ¬ ParserState.parse_from ParserState.Hours ('1' :: '4' :: []) = some 0 ∧
    DateTimeValues.fromStr "2024-02-1114".toList =
      { year := 2024, month := 2, date := 11, hours := 0, minutes := 0, seconds := 0,
        timezone := TimezoneValues.default } := by
  refine ⟨by decide, by decide, by decide⟩

/-- C2 (amended): for the `-` separator (month, day) and the `:` separator
(minute, second), a matching first character is consumed (prefix length 1)
and a non-matching one falls back to prefix length 0, reading the field at
the current position; for the hour's `T`/space separator there is no such
fallback — a non-matching first character yields `none`, halting the
parse. -/
theorem c2_separator_handling (c : Char) (rest : Str) :
    ParserState.parse_from ParserState.Month (c :: rest) =
        some (if c = '-' then 1 else 0) ∧
    ParserState.parse_from ParserState.Date (c :: rest) =
        some (if c = '-' then 1 else 0) ∧
    ParserState.parse_from ParserState.Minutes (c :: rest) =
        some (if c = ':' then 1 else 0) ∧
    ParserState.parse_from ParserState.Seconds (c :: rest) =
        some (if c = ':' then 1 else 0) ∧
    ParserState.parse_from ParserState.Hours (c :: rest) =
        (if c = 'T' ∨ c = ' ' then some 1 else none) := by
  refine ⟨?_, ?_, ?_, ?_, ?_⟩ <;>
    simp [ParserState.parse_from, ParserState.sepOf, strGet_cons_one]

/-- C3: monotonic-prefix property — when `parse` succeeds on `s`,
truncating `s` at its `k`-th field boundary yields the same leading
`k + 1` fields with every remaining field (including the offset) at its
default, and that truncated parse also succeeds. -/
theorem c3_prefix_monotonic (s : Str) (k b : Nat)
    (hb : (parseBoundaries s)[k]? = some b)
    (hs : (parse_datetime s).isSome = true) :
    DateTimeValues.fromStr (s.take b) =
      blend DateTimeValues.default (DateTimeValues.fromStr s) 0 (k + 1) ∧
    (parse_datetime (s.take b)).isSome = true := by
  have hmain : DateTimeValues.fromStr (s.take b) =
      blend DateTimeValues.default (DateTimeValues.fromStr s) 0 (k + 1) := by
    have := parseAux_take_boundary (6 + 1) DateTimeValues.default s ParserState.Year k b hb
    simpa [DateTimeValues.fromStr, DateTimeValues.parse, ParserState.idx] using this
  refine ⟨hmain, ?_⟩
  have hklt : k < (parseBoundaries s).length := by
    by_contra hge
    push_neg at hge
    rw [List.getElem?_eq_none hge] at hb
    exact absurd hb (by simp)
  have hk6 : k + 1 ≤ 6 := by
    have hle := bndAux_length_le (6 + 1) s ParserState.Year
    have : (parseBoundaries s).length ≤ 6 := hle
    omega
  rcases he : east_opt (DateTimeValues.fromStr s).timezone.secs with _ | o
  · simp [parse_datetime, he] at hs
  · have hv : validFields (DateTimeValues.fromStr s).year (DateTimeValues.fromStr s).month
        (DateTimeValues.fromStr s).date (DateTimeValues.fromStr s).hours
        (DateTimeValues.fromStr s).minutes (DateTimeValues.fromStr s).seconds = true := by
      by_contra hvf
      rw [Bool.not_eq_true] at hvf
      simp [parse_datetime, he, with_ymd_and_hms, hvf] at hs
    have htz : (blend DateTimeValues.default (DateTimeValues.fromStr s) 0 (k + 1)).timezone =
        TimezoneValues.default := by
      simp only [blend]
      rw [if_neg (by omega)]
      rfl
    have hvb := validFields_blend (DateTimeValues.fromStr s) (k + 1) hv
    simp [parse_datetime, hmain, htz, TimezoneValues.secs, TimezoneValues.default, east_opt,
      with_ymd_and_hms, hvb]

/-- C3 (witness): truncating `"2024-02-11T14:15:45+05:00"` at its third
field boundary (position 10, after the day) keeps year, month and day and
defaults the rest. -/
theorem c3_prefix_monotonic_witness :
    (parseBoundaries "2024-02-11T14:15:45+05:00".toList)[2]? = some 10 ∧
    (parse_datetime "2024-02-11T14:15:45+05:00".toList).isSome = true ∧
    DateTimeValues.fromStr ("2024-02-11T14:15:45+05:00".toList.take 10) =
      blend DateTimeValues.default
        (DateTimeValues.fromStr "2024-02-11T14:15:45+05:00".toList) 0 (2 + 1) :=
  ⟨by decide, by decide,
    (c3_prefix_monotonic "2024-02-11T14:15:45+05:00".toList 2 10 (by decide) (by decide)).1⟩

/-- C4: when the aggregated fields encode month 13, or an offset whose
magnitude is at least 24 hours in seconds, `parse_datetime` returns
`none`; in the embedding the parse is a total function, so the absent
result is the only failure signal. -/
theorem c4_invalid_fields_yield_none (s : Str)
    (h : (DateTimeValues.fromStr s).month = 13 ∨
      86400 ≤ |(DateTimeValues.fromStr s).timezone.secs|) :
    parse_datetime s = none := by
  rcases h with hm | ho
  · cases he : east_opt (DateTimeValues.fromStr s).timezone.secs with
    | none => simp [parse_datetime, he]
    | some tz =>
      have hv : validFields (DateTimeValues.fromStr s).year (DateTimeValues.fromStr s).month
          (DateTimeValues.fromStr s).date (DateTimeValues.fromStr s).hours
          (DateTimeValues.fromStr s).minutes (DateTimeValues.fromStr s).seconds = false := by
        unfold validFields
        rw [hm]
        simp
      simp [parse_datetime, he, with_ymd_and_hms, hv]
  · have he : east_opt (DateTimeValues.fromStr s).timezone.secs = none := by
      unfold east_opt
      rw [if_neg]
      rcases le_abs.mp ho with h' | h' <;> omega
    simp [parse_datetime, he]

/-- C4 (witness): `"2024-13"` encodes month 13 and parses to nothing. -/
theorem c4_invalid_fields_yield_none_witness :
    (DateTimeValues.fromStr "2024-13".toList).month = 13 ∧
      parse_datetime "2024-13".toList = none :=
  ⟨by decide, c4_invalid_fields_yield_none _ (Or.inl (by decide))⟩

/-- C5: offset normalization — after any prefix whose six main fields
consume it exactly (a timestamp parsed through seconds), the basic offset
form `+0500` and the missing-minutes form `+05` parse identically to the
extended form `+05:00`: the absent `:`/minutes block leaves minutes at 0. -/
theorem c5_offset_normalization (s : Str) (h : throughSeconds s = true) :
    parse_datetime (s ++ "+0500".toList) = parse_datetime (s ++ "+05:00".toList) ∧
    parse_datetime (s ++ "+05".toList) = parse_datetime (s ++ "+05:00".toList) := by
  have happ : ∀ t : Str, DateTimeValues.fromStr (s ++ t) =
      { DateTimeValues.fromStr s with
          timezone :=
            TimezoneValues.parse TimezoneValues.default t TimezoneParserState.Sign } := by
    intro t
    exact parseAux_append (6 + 1) DateTimeValues.default s t ParserState.Year h
  have e1 : TimezoneValues.parse TimezoneValues.default "+0500".toList
        TimezoneParserState.Sign =
      TimezoneValues.parse TimezoneValues.default "+05:00".toList
        TimezoneParserState.Sign := by decide
  have e2 : TimezoneValues.parse TimezoneValues.default "+05".toList
        TimezoneParserState.Sign =
      TimezoneValues.parse TimezoneValues.default "+05:00".toList
        TimezoneParserState.Sign := by decide
  constructor
  · simp only [parse_datetime]
    rw [happ, happ, e1]
  · simp only [parse_datetime]
    rw [happ, happ, e2]

/-- C5 (witness): a concrete timestamp parsed through seconds, with the
`+0500` and `+05:00` offset spellings agreeing. -/
theorem c5_offset_normalization_witness :
    throughSeconds "2024-02-11T14:15:45".toList = true ∧
    parse_datetime ("2024-02-11T14:15:45".toList ++ "+0500".toList) =
      parse_datetime ("2024-02-11T14:15:45".toList ++ "+05:00".toList) :=
  ⟨by decide, (c5_offset_normalization _ (by decide)).1⟩

/-- C6: the total offset in seconds is `(hours * 60 + minutes) * 60`,
negated when the recorded sign is negative; `"-0445"` gives exactly
−17100 seconds and `"+0430"` gives +16200 seconds. -/
theorem c6_offset_secs_formula :
    (∀ tz : TimezoneValues, tz.secs =
      if tz.sign then (tz.hours * 60 + tz.minutes) * 60
      else -((tz.hours * 60 + tz.minutes) * 60)) ∧
    (parse_datetime "2024-02-11T14:15:45-0445".toList).map Instant.offsetSecs =
      some (-17100) ∧
    (parse_datetime "2024-02-11T14:15:45+0430".toList).map Instant.offsetSecs =
      some 16200 := by
  refine ⟨fun tz => ?_, by decide, by decide⟩
  cases htz : tz.sign <;> simp [TimezoneValues.secs, htz]

/-- C7: aggregator invariant — every aggregator state reached during a
parse (each snapshot after a mutation, in mutation order) has each field
holding either its default value or a value whose substring parsed
successfully under that field's rule; fields are only overwritten whole by
`set` after their substring parses, so no partially-written field ever
appears. -/
theorem c7_aggregator_invariant (s : Str) (w : DateTimeValues)
    (hw : w ∈ parseTrace s) : FieldOk w :=
  fieldok_trace (6 + 1) DateTimeValues.default s ParserState.Year fieldok_default w hw

/-- C7 (witness): the single snapshot of parsing `"2024"` — year committed,
everything else default — satisfies the invariant. -/
theorem c7_aggregator_invariant_witness :
    DateTimeValues.mk 2024 1 1 0 0 0 TimezoneValues.default ∈ parseTrace "2024".toList ∧
    FieldOk (DateTimeValues.mk 2024 1 1 0 0 0 TimezoneValues.default) :=
  ⟨by decide, c7_aggregator_invariant "2024".toList _ (by decide)⟩

/-- C8: parsing always terminates, with recursion depth bounded by the
input length plus the fixed 7-state chain: the call-counting interpreter
`parseSteps`, which spends one unit of fuel on every recursive call of the
main Year→…→Timezone chain and of the offset parser's Sign→Hours→Minutes
chain (each call consuming a suffix of the input), never exhausts
`length + 7` units and computes exactly the parser's result. -/
theorem c8_parse_terminates (v : DateTimeValues) (s : Str) (st : ParserState) :
    parseSteps (s.length + 7) v s st = some (DateTimeValues.parse v s st) :=
  parseSteps_complete (s.length + 7) v s st (le_refl _)

/-- C9: checked slicing is safe — whenever `str.get(from..from + size)`
returns a substring, the cut point `from + size` is within bounds, the
substring has exactly the requested width, and the unchecked recursion
slice `&str[from + size..]` is the genuine remainder of the string. -/
theorem c9_slice_in_bounds (s sub : Str) (f size : Nat)
    (h : strGet s f (f + size) = some sub) :
    f + size ≤ s.length ∧ sub.length = size ∧
      s.take (f + size) ++ s.drop (f + size) = s := by
  obtain ⟨h1, h2, h3⟩ := strGet_eq_some h
  refine ⟨h2, ?_, List.take_append_drop _ _⟩
  subst h3
  rw [List.length_take, List.length_drop]
  omega

/-- C9 (witness): a concrete in-bounds slice. -/
theorem c9_slice_in_bounds_witness :
    strGet ['2', '0', '2', '4', '-'] 0 (0 + 4) = some ['2', '0', '2', '4'] ∧
      0 + 4 ≤ (['2', '0', '2', '4', '-'] : Str).length :=
  ⟨by decide,
    (c9_slice_in_bounds ['2', '0', '2', '4', '-'] ['2', '0', '2', '4'] 0 4 (by decide)).1⟩

/-- C10: the two-character offset hour and minute substrings go through the
signed `i32` parser, so an interior sign character is accepted: an hour
substring `-1…` records hours −1 (and a minute substring `-1…` records
minutes −1) instead of stopping, and a timestamp ending in `"+-12"` yields
offset hours −1 with a positive recorded sign, for a total of −3600
seconds. -/
theorem c10_signed_offset_components :
    (∀ (tz : TimezoneValues) (rest : Str),
        (TimezoneValues.parse_hours tz ('-' :: '1' :: rest)).hours = -1) ∧
    (∀ (tz : TimezoneValues) (rest : Str),
        (TimezoneValues.parse_minutes tz ('-' :: '1' :: rest)).minutes = -1) ∧
    TimezoneValues.default.parse_sign "+-12".toList =
      { sign := true, hours := -1, minutes := 0 } ∧
    (parse_datetime "2024-02-11T14:15:45+-12".toList).map Instant.offsetSecs =
      some (-3600) := by
  refine ⟨fun tz rest => ?_, fun tz rest => ?_, by decide, by decide⟩
  · rw [TimezoneValues.parse_hours]
    have h2 : strGet ('-' :: '1' :: rest) 0 2 = some ['-', '1'] := by
      simp [strGet]
    rw [h2]
    have hp : parseI32 ['-', '1'] = some (-1) := by decide
    simp only [Option.some_bind, hp]
    unfold strGetFrom
    rw [if_pos (by simp)]
    exact (parse_minutes_frame _ _).2
  · rw [TimezoneValues.parse_minutes]
    rw [if_neg (by decide)]
    have h2 : strGet ('-' :: '1' :: rest) 0 2 = some ['-', '1'] := by
      simp [strGet]
    rw [h2]
    have hp : parseI32 ['-', '1'] = some (-1) := by decide
    simp only [Option.some_bind, hp]
